import Mathlib

/-!
# Verification of the DaveLovable agent tool-execution core

Shallow embedding of the backend agent tools of the DaveLovable repository
(`src/backend/app/agents/tools/` and the services they rely on), together with
proofs settling the specification claims about the surgical edit engine, the
terminal-command guard, the search-result caps, the SSE heartbeat generator and
the workspace commit discipline.

File contents are modelled as `List Char` (Python `str`), so that Python's
substring membership (`old in content`) and `str.replace(old, new, 1)` can be
embedded as executable recursive functions and reasoned about by induction.
-/

set_option autoImplicit false

namespace DaveLovable

/-- Coerce a Lean string literal to the `List Char` representation used
throughout the development. -/
def strL (s : String) : List Char := s.data

/-! ## Basic string primitives (Python semantics) -/

/-- `startsWith pat s`: `pat` is an initial segment of `s`
(Python `s.startswith(pat)`). The empty pattern starts every string. -/
def startsWith : List Char → List Char → Bool
  | [], _ => true
  | _ :: _, [] => false
  | p :: ps, c :: cs => p == c && startsWith ps cs

/-- `occursIn pat s`: `pat` occurs as a contiguous substring of `s`
(Python `pat in s`). The empty pattern occurs in every string. -/
def occursIn (pat : List Char) : List Char → Bool
  | [] => startsWith pat []
  | c :: cs => startsWith pat (c :: cs) || occursIn pat cs

/-- `endsWith suf s`: `s` ends with `suf` (Python `s.endswith(suf)`). -/
def endsWith (suf s : List Char) : Bool :=
  startsWith suf.reverse s.reverse

theorem startsWith_iff : ∀ (pat s : List Char),
    startsWith pat s = true ↔ ∃ t, s = pat ++ t := by
  intro pat
  induction pat with
  | nil =>
    intro s
    simp [startsWith]
  | cons p ps ih =>
    intro s
    cases s with
    | nil =>
      simp [startsWith]
    | cons c cs =>
      simp only [startsWith, Bool.and_eq_true, beq_iff_eq, ih cs]
      constructor
      · rintro ⟨rfl, t, rfl⟩
        exact ⟨t, rfl⟩
      · rintro ⟨t, h⟩
        cases h
        exact ⟨rfl, t, rfl⟩

theorem occursIn_iff : ∀ (pat s : List Char),
    occursIn pat s = true ↔ ∃ pre post, s = pre ++ pat ++ post := by
  intro pat s
  induction s with
  | nil =>
    simp only [occursIn, startsWith_iff]
    constructor
    · rintro ⟨t, h⟩
      exact ⟨[], t, h⟩
    · rintro ⟨pre, post, h⟩
      cases pre with
      | nil => exact ⟨post, h⟩
      | cons a l => simp at h
  | cons c cs ih =>
    simp only [occursIn, Bool.or_eq_true, startsWith_iff, ih]
    constructor
    · rintro (⟨t, h⟩ | ⟨pre, post, h⟩)
      · exact ⟨[], t, by simpa using h⟩
      · exact ⟨c :: pre, post, by simp [h]⟩
    · rintro ⟨pre, post, h⟩
      cases pre with
      | nil =>
        exact Or.inl ⟨post, by simpa using h⟩
      | cons a l =>
        simp only [List.cons_append, List.cons.injEq] at h
        exact Or.inr ⟨l, post, h.2⟩

/-! ## The surgical edit engine

`src/backend/app/agents/tools/edit_file.py` reads the file content, returns an
error when `old_string not in content`, and otherwise writes back
`content.replace(old_string, new_string, 1)` — Python's "replace the first
occurrence" primitive. -/

/-- Python `content.replace(old, new, 1)`: replace the first (leftmost)
occurrence of `old` by `new`; content is returned unchanged when `old` does
not occur. An empty `old` matches at position 0, so `new` is inserted in
front of the content. -/
def replaceFirst (content old new : List Char) : List Char :=
  match content with
  | [] => if startsWith old [] then new else []
  | c :: rest =>
    if startsWith old (c :: rest) then new ++ (c :: rest).drop old.length
    else c :: replaceFirst rest old new

/-- The content-level behaviour of `edit_file` (edit_file.py): `none` models
the `String not found in file` error result, `some c` models a successful
edit that writes `c` back to the file. -/
def editContent (content old new : List Char) : Option (List Char) :=
  if occursIn old content then some (replaceFirst content old new) else none

/-- When `old` occurs in `content`, `replaceFirst` rewrites precisely the
leftmost occurrence: `content` splits as `pre ++ old ++ post` with `pre` of
minimal length, and the result is `pre ++ new ++ post`. -/
theorem replaceFirst_spec : ∀ (content old new : List Char),
    occursIn old content = true →
    ∃ pre post,
      content = pre ++ old ++ post ∧
      replaceFirst content old new = pre ++ new ++ post ∧
      ∀ pre' post', content = pre' ++ old ++ post' → pre.length ≤ pre'.length := by
  intro content
  induction content with
  | nil =>
    intro old new h
    simp only [occursIn, startsWith_iff] at h
    obtain ⟨t, ht⟩ := h
    refine ⟨[], t, by simpa using ht, ?_, fun pre' post' _ => Nat.zero_le _⟩
    simp only [replaceFirst, if_pos ((startsWith_iff old []).2 ⟨t, ht⟩)]
    cases old with
    | nil =>
      cases t with
      | nil => simp
      | cons a l => simp at ht
    | cons a l => simp at ht
  | cons c cs ih =>
    intro old new h
    by_cases hsw : startsWith old (c :: cs) = true
    · obtain ⟨t, ht⟩ := (startsWith_iff old (c :: cs)).1 hsw
      refine ⟨[], t, by simpa using ht, ?_, fun pre' post' _ => Nat.zero_le _⟩
      simp only [replaceFirst, if_pos hsw, List.nil_append]
      rw [ht, List.drop_left]
    · have hocc : occursIn old cs = true := by
        have := h
        simp only [occursIn, hsw, Bool.false_or] at this
        exact this
      obtain ⟨pre, post, hsplit, hrep, hmin⟩ := ih old new hocc
      refine ⟨c :: pre, post, by simp [hsplit], ?_, ?_⟩
      · simp [replaceFirst, hsw, hrep]
      · intro pre' post' hsplit'
        cases pre' with
        | nil =>
          exfalso
          apply hsw ∘ (startsWith_iff old (c :: cs)).2
          exact ⟨post', by simpa using hsplit'⟩
        | cons a l =>
          simp only [List.cons_append, List.cons.injEq] at hsplit'
          have := hmin l post' hsplit'.2
          simpa using Nat.succ_le_succ this

/-- Converse direction: at a minimal split `pre ++ pat ++ post`,
`replaceFirst` produces exactly `pre ++ rep ++ post`. -/
theorem replaceFirst_of_minimal_split : ∀ (pre pat post rep : List Char),
    (∀ pre' post', pre ++ pat ++ post = pre' ++ pat ++ post' →
      pre.length ≤ pre'.length) →
    replaceFirst (pre ++ pat ++ post) pat rep = pre ++ rep ++ post := by
  intro pre
  induction pre with
  | nil =>
    intro pat post rep _
    simp only [List.nil_append]
    cases hpp : pat ++ post with
    | nil =>
      have hpat : pat = [] := by
        cases pat with
        | nil => rfl
        | cons a l => simp at hpp
      have hpost : post = [] := by
        cases pat with
        | nil => simpa using hpp
        | cons a l => simp at hpp
      subst hpat; subst hpost
      simp [replaceFirst, startsWith]
    | cons c cs =>
      have hsw : startsWith pat (c :: cs) = true :=
        (startsWith_iff pat (c :: cs)).2 ⟨post, hpp.symm⟩
      simp only [replaceFirst, if_pos hsw]
      rw [← hpp, List.drop_left]
  | cons c pre'' ih =>
    intro pat post rep hmin
    have hsw : startsWith pat (c :: (pre'' ++ (pat ++ post))) = false := by
      cases hval : startsWith pat (c :: (pre'' ++ (pat ++ post))) with
      | false => rfl
      | true =>
        exfalso
        obtain ⟨t, ht⟩ := (startsWith_iff pat _).1 hval
        have := hmin [] t (by simp [ht, List.append_assoc])
        simp at this
    have hstep : replaceFirst ((c :: pre'') ++ pat ++ post) pat rep
        = c :: replaceFirst (pre'' ++ pat ++ post) pat rep := by
      simp [replaceFirst, hsw]
    rw [hstep, ih pat post rep]
    · simp
    · intro pre' post' hsplit'
      have := hmin (c :: pre') post' (by simp [hsplit'])
      simpa using this

/-- Number of (possibly overlapping) occurrence positions of `pat` in `s`:
the number of indices `i` with `startsWith pat (s.drop i) = true`. -/
def occCount (pat : List Char) : List Char → Nat
  | [] => if startsWith pat [] then 1 else 0
  | c :: cs => (if startsWith pat (c :: cs) then 1 else 0) + occCount pat cs

/-! ## The terminal-command guard

`src/backend/app/agents/tools/terminal.py` (`run_terminal_cmd`, the command
execution tool the orchestrator registers): before spawning any subprocess it
lowercases and strips the command, blocks it when any entry of the dev-server
deny list occurs in it as a substring, then blocks it when it contains `&`
without ending (after strip) in `&&`; only then does it call
`subprocess.run(..., timeout=60)`. -/

/-- ASCII lowercasing of one character (the deny-list patterns are ASCII, so
Python `str.lower()` agrees with ASCII lowercasing on them). -/
def toLowerChar (c : Char) : Char :=
  if 'A' ≤ c && c ≤ 'Z' then Char.ofNat (c.toNat + 32) else c

/-- Python `str.strip()` whitespace class (ASCII part). -/
def isPySpace (c : Char) : Bool :=
  c == ' ' || c == '\t' || c == '\n' || c == '\x0d' || c == '\x0b' || c == '\x0c'

/-- Python `s.strip()`: remove leading and trailing whitespace. -/
def pyStrip (s : List Char) : List Char :=
  ((s.dropWhile isPySpace).reverse.dropWhile isPySpace).reverse

/-- `command.lower().strip()` as computed at the top of `run_terminal_cmd`. -/
def commandLower (command : List Char) : List Char :=
  pyStrip (command.map toLowerChar)

/-- The `forbidden_patterns` deny list of `run_terminal_cmd` (terminal.py),
in source order. -/
def forbiddenPatterns : List (List Char) :=
  [strL "npm run dev", strL "npm start", strL "npm run build",
   strL "yarn dev", strL "yarn start", strL "yarn build",
   strL "pnpm dev", strL "pnpm start", strL "pnpm build",
   strL "vite", strL "vite dev", strL "vite build",
   strL "react-scripts start", strL "next dev", strL "next start"]

/-- Result of one `run_terminal_cmd` call. The two blocked constructors stand
for the `🚨 COMMAND BLOCKED 🚨` and `🚨 BACKGROUND COMMAND BLOCKED 🚨`
messages (each interpolating the offending command); `output` stands for the
`Command/Exit code/STDOUT/STDERR` report of a completed subprocess;
`timedOutMsg` stands for the string
`Error: Command timed out after 60 seconds` returned on
`subprocess.TimeoutExpired`. -/
inductive CmdResult
  | blockedForbiddenMsg (command : List Char)
  | blockedBackgroundMsg (command : List Char)
  | output (command : List Char) (exitCode : Int) (stdout stderr : List Char)
  | timedOutMsg
  deriving DecidableEq

/-- Guard phase of `run_terminal_cmd`: which branch is taken before any
subprocess can be spawned. `run c` means the guards passed and
`subprocess.run` is reached with command `c`. -/
inductive GuardDecision
  | blockForbidden
  | blockBackground
  | run (command : List Char)
  deriving DecidableEq

/-- The guard logic of `run_terminal_cmd` (terminal.py): first the deny-list
scan over `command.lower().strip()`, then the background-`&` check on the
raw command, otherwise execution proceeds. (The Windows `pwd`/`ls` rewriting
that follows is a no-op on the POSIX deployment modelled here.) -/
def runTerminalGuard (command : List Char) : GuardDecision :=
  if forbiddenPatterns.any (fun p => occursIn p (commandLower command)) then
    .blockForbidden
  else if occursIn [ '&' ] command && !endsWith (strL "&&") (pyStrip command) then
    .blockBackground
  else
    .run command

/-- Abstract outcome of the `subprocess.run(..., timeout=60)` call: either the
process finishes within the 60-second bound or `subprocess.TimeoutExpired`
is raised (Python kills the child in that case). -/
inductive ExecOutcome
  | completes (exitCode : Int) (stdout stderr : List Char)
  | exceedsTimeout
  deriving DecidableEq

/-- The fixed `timeout=` argument passed to `subprocess.run` in terminal.py. -/
def terminalTimeoutSeconds : Nat := 60

/-- Whether a guard decision spawns a subprocess: only the `run` branch
reaches `subprocess.run`. -/
def spawnsSubprocess : GuardDecision → Bool
  | .run _ => true
  | _ => false

/-- `run_terminal_cmd` end to end, with the subprocess behaviour abstracted
as an `ExecOutcome` parameter (`outcome` is consulted only when the guards
pass). -/
def runTerminalCmd (command : List Char) (outcome : ExecOutcome) : CmdResult :=
  match runTerminalGuard command with
  | .blockForbidden => .blockedForbiddenMsg command
  | .blockBackground => .blockedBackgroundMsg command
  | .run c =>
    match outcome with
    | .completes code out err => .output c code out err
    | .exceedsTimeout => .timedOutMsg

/-! ## Search tools

`file_search.py` collects file paths whose lowercased path contains the
lowercased query, appending to `matches` and breaking out of the scan as soon
as `len(matches) >= 10`; it returns `truncated: len(matches) >= 10`.
`grep_search.py` does the same with cap 50 over `(file, line)` pairs.
`glob_search.py` returns all glob matches sorted by modification time,
newest first, with no cap and no `truncated` field. -/

/-- Python `s.rstrip()`: remove trailing whitespace (used by grep on each
matching line). -/
def pyRstrip (s : List Char) : List Char :=
  (s.reverse.dropWhile isPySpace).reverse

/-- The scan loop of `file_search`: walk the glob file list in order,
collect paths whose lowercased form contains the lowercased query, and break
as soon as the accumulator reaches 10 entries. -/
def fileSearchLoop (queryLower : List Char) :
    List (List Char) → List (List Char) → List (List Char)
  | acc, [] => acc
  | acc, f :: fs =>
    if occursIn queryLower (f.map toLowerChar) then
      let acc' := acc ++ [f]
      if 10 ≤ acc'.length then acc' else fileSearchLoop queryLower acc' fs
    else
      fileSearchLoop queryLower acc fs

/-- The result dictionary of `file_search` (the `success=True` case). -/
structure FileSearchResult where
  matchList : List (List Char)
  count : Nat
  truncated : Bool
  deriving DecidableEq

/-- `file_search(query)` over a workspace whose recursive file listing
(the order `glob.glob("**/*")` yields, files only) is `files`. -/
def fileSearch (files : List (List Char)) (query : List Char) : FileSearchResult :=
  let ms := fileSearchLoop (query.map toLowerChar) [] files
  ⟨ms, ms.length, decide (10 ≤ ms.length)⟩

/-- One entry of the `results` list of `grep_search`. -/
structure GrepMatch where
  file : List Char
  lineNum : Nat
  content : List Char
  deriving DecidableEq

/-- Inner line loop of `grep_search` over one file: `enumerate(f, 1)` with a
break once the global `results` list has reached 50 entries. The regex test
`search_pattern.search(line)` is abstracted as the predicate `pred`. -/
def grepFileLoop (pred : List Char → Bool) (file : List Char) :
    Nat → List GrepMatch → List (List Char) → List GrepMatch
  | _, acc, [] => acc
  | n, acc, l :: ls =>
    if pred l then
      let acc' := acc ++ [⟨file, n, pyRstrip l⟩]
      if 50 ≤ acc'.length then acc'
      else grepFileLoop pred file (n + 1) acc' ls
    else
      grepFileLoop pred file (n + 1) acc ls

/-- Outer file loop of `grep_search`, with the second `len(results) >= 50`
break after each file. `files` is the list of scanned files with their
lines (the glob listing after the excluded-directory filter). -/
def grepLoop (pred : List Char → Bool) :
    List GrepMatch → List (List Char × List (List Char)) → List GrepMatch
  | acc, [] => acc
  | acc, (f, ls) :: rest =>
    let acc' := grepFileLoop pred f 1 acc ls
    if 50 ≤ acc'.length then acc' else grepLoop pred acc' rest

/-- The result dictionary of `grep_search` (the `success=True` case). -/
structure GrepResult where
  results : List GrepMatch
  count : Nat
  truncated : Bool
  deriving DecidableEq

/-- `grep_search` over the scanned files. -/
def grepSearch (pred : List Char → Bool)
    (files : List (List Char × List (List Char))) : GrepResult :=
  let rs := grepLoop pred [] files
  ⟨rs, rs.length, decide (50 ≤ rs.length)⟩

/-- Python's `matches.sort(key=mtime, reverse=True)` modelled as insertion
sort, newest first. -/
def insertByKeyDesc (key : List Char → Nat) (x : List Char) :
    List (List Char) → List (List Char)
  | [] => [x]
  | y :: ys => if key y < key x then x :: y :: ys else y :: insertByKeyDesc key x ys

/-- Descending sort by `key` (modification time). -/
def sortByKeyDesc (key : List Char → Nat) : List (List Char) → List (List Char)
  | [] => []
  | x :: xs => insertByKeyDesc key x (sortByKeyDesc key xs)

/-- The result dictionary of `glob_search` (the `success=True` case). Note:
the source returns only `pattern`, `search_path`, `matches` and `count` —
there is no cap and no `truncated` field. -/
structure GlobResult where
  matchList : List (List Char)
  count : Nat
  deriving DecidableEq

/-- `glob_search` over a workspace in which the glob engine produced
`globMatches` and `mtime` gives each path's modification time. -/
def globSearch (mtime : List Char → Nat) (globMatches : List (List Char)) :
    GlobResult :=
  let sorted := sortByKeyDesc mtime globMatches
  ⟨sorted, sorted.length⟩

/-! ## The SSE heartbeat generator

`event_generator` in `src/backend/app/api/chat.py`: for each event produced
by `ChatService.process_chat_message_stream`, it first yields the SSE
comment `: keep-alive\n\n` when more than 15 seconds have passed since the
last yielded chunk, then yields `data: {json}\n\n` and resets the
heartbeat clock. Nothing is ever yielded between two incoming events. -/

/-- One event of the inner agent stream, tagged with its arrival time
(seconds since the stream started). -/
structure TimedEvent where
  time : Nat
  payload : List Char
  deriving DecidableEq

/-- One chunk yielded to the SSE client: either the `: keep-alive\n\n`
comment or a `data: ...\n\n` frame, tagged with the time it is yielded. -/
inductive SSEChunk
  | keepAlive (time : Nat)
  | dataChunk (time : Nat) (payload : List Char)
  deriving DecidableEq

/-- Time at which a chunk is yielded. -/
def chunkTime : SSEChunk → Nat
  | .keepAlive t => t
  | .dataChunk t _ => t

/-- The `event_generator` loop: `lastHeartbeat` starts at the stream start
time and is reset to `now` after every yielded chunk. -/
def eventGen (lastHeartbeat : Nat) : List TimedEvent → List SSEChunk
  | [] => []
  | e :: rest =>
    if 15 < e.time - lastHeartbeat then
      .keepAlive e.time :: .dataChunk e.time e.payload :: eventGen e.time rest
    else
      .dataChunk e.time e.payload :: eventGen e.time rest

/-- `gapsWithin bound times`: each consecutive pair of emission times differs
by at most `bound` ("the connection never idles longer than `bound`"). -/
def gapsWithin (bound : Nat) : List Nat → Bool
  | [] => true
  | [_] => true
  | a :: b :: rest => decide (b - a ≤ bound) && gapsWithin bound (b :: rest)

/-! ## The versioned workspace

A project workspace is a directory tree under git
(`FileSystemService` + `GitService`). We model it as the pair of the working
tree and the tree recorded by the last commit, both as `filepath → content`
association maps. The agent file tools
(`agents/tools/write_file.py`, `edit_file.py`, `delete_file.py`) write to the
filesystem only — neither they nor their callers in `orchestrator.py` /
`chat_service.py` invoke `GitService`. The project-file API
(`ProjectService.add_file_to_project` / `update_file` / `delete_file`)
follows each filesystem mutation with `GitService.commit_changes`
(`git add` of the touched file, or `git add .` for deletions, then
`git commit`). `GitService.get_diff` runs plain `git diff`, whose output
covers modified or deleted *tracked* files only — an untracked addition
produces no `git diff` output. -/

/-- Content of path `p` in a tree (association-list lookup). -/
def lookupFile (tree : List (List Char × List Char)) (p : List Char) :
    Option (List Char) :=
  match tree with
  | [] => none
  | (q, c) :: rest => if q == p then some c else lookupFile rest p

/-- Write content `c` at path `p` (create or overwrite). -/
def setFile (tree : List (List Char × List Char)) (p c : List Char) :
    List (List Char × List Char) :=
  match tree with
  | [] => [(p, c)]
  | (q, d) :: rest => if q == p then (p, c) :: rest else (q, d) :: setFile rest p c

/-- Remove path `p` from a tree. -/
def delFile (tree : List (List Char × List Char)) (p : List Char) :
    List (List Char × List Char) :=
  tree.filter (fun e => !(e.fst == p))

/-- Workspace state: the working tree and the tree at the last commit. -/
structure WsState where
  tree : List (List Char × List Char)
  head : List (List Char × List Char)
  deriving DecidableEq

/-- The agent tool `write_file(target_file, file_content)`
(agents/tools/write_file.py): writes the file to the workspace filesystem
and returns; no git operation is performed. -/
def toolWriteFile (s : WsState) (p c : List Char) : WsState :=
  ⟨setFile s.tree p c, s.head⟩

/-- The agent tool `delete_file(target_file)`
(agents/tools/delete_file.py): removes the file from the filesystem; no git
operation is performed. -/
def toolDeleteFile (s : WsState) (p : List Char) : WsState :=
  ⟨delFile s.tree p, s.head⟩

/-- `git add p` (one iteration of the staging loop of
`GitService.commit_changes` with an explicit file list): record the working
tree's state of path `p` (content, or absence) into the commit tree. -/
def stagePath (tree head : List (List Char × List Char)) (p : List Char) :
    List (List Char × List Char) :=
  match lookupFile tree p with
  | some c => setFile head p c
  | none => delFile head p

/-- `GitService.commit_changes(project_id, msg, [p])`: stage path `p` and
commit (a no-op commit when nothing is staged). -/
def commitPath (s : WsState) (p : List Char) : WsState :=
  ⟨s.tree, stagePath s.tree s.head p⟩

/-- `GitService.commit_changes(project_id, msg)` with no file list:
`git add .` stages every change, so the commit records the whole working
tree. -/
def commitAll (s : WsState) : WsState :=
  ⟨s.tree, s.tree⟩

/-- `ProjectService.update_file` (also the filesystem/git part of
`add_file_to_project`): write the content, then commit that file. -/
def updateFileApi (s : WsState) (p c : List Char) : WsState :=
  commitPath (toolWriteFile s p c) p

/-- `ProjectService.delete_file`: remove the file, then
`commit_changes` with no file list (`git add .`). -/
def deleteFileApi (s : WsState) (p : List Char) : WsState :=
  commitAll (toolDeleteFile s p)

/-- The paths `git diff` reports. Plain `git diff` (as run by
`GitService.get_diff`, with no `--cached` and no untracked handling)
compares the working tree against the index; after each `commit_changes`
the index agrees with `HEAD` on every committed path, and an *untracked*
file — present only in the working tree, never committed — produces no
output at all. So the reported paths are the paths recorded by the last
commit whose working-tree content is modified or deleted. -/
def dirtyFiles (s : WsState) : List (List Char) :=
  (s.head.map Prod.fst).filter
    (fun p => !(lookupFile s.tree p == lookupFile s.head p))

/-- `GitService.get_diff` returns the empty string exactly when no path of
the last commit is modified or deleted in the working tree (untracked
additions never show in `git diff`). -/
def diffEmpty (s : WsState) : Bool :=
  (dirtyFiles s).isEmpty

theorem lookupFile_mem_of_some :
    ∀ (tree : List (List Char × List Char)) (p c : List Char),
    lookupFile tree p = some c → p ∈ tree.map Prod.fst := by
  intro tree p c
  induction tree with
  | nil =>
    intro h
    simp [lookupFile] at h
  | cons e rest ih =>
    obtain ⟨q, d⟩ := e
    intro h
    by_cases hqp : (q == p) = true
    · have hq : q = p := by simpa using hqp
      simp [hq]
    · have hqp' : (q == p) = false := by simpa using hqp
      simp only [lookupFile, hqp', Bool.false_eq_true, if_false] at h
      simp [ih h]

theorem lookupFile_some_of_mem :
    ∀ (tree : List (List Char × List Char)) (p : List Char),
    p ∈ tree.map Prod.fst → ∃ c, lookupFile tree p = some c := by
  intro tree p
  induction tree with
  | nil =>
    intro h
    simp at h
  | cons e rest ih =>
    obtain ⟨q, d⟩ := e
    intro h
    by_cases hqp : (q == p) = true
    · exact ⟨d, by simp [lookupFile, hqp]⟩
    · have hqp' : (q == p) = false := by simpa using hqp
      have hp : p ∈ rest.map Prod.fst := by
        simp only [List.map_cons, List.mem_cons] at h
        rcases h with h | h
        · exfalso
          apply hqp
          simp [h]
        · exact h
      obtain ⟨c, hc⟩ := ih hp
      exact ⟨c, by simp [lookupFile, hqp', hc]⟩

theorem diffEmpty_iff (s : WsState) :
    diffEmpty s = true ↔
      ∀ p c, lookupFile s.head p = some c → lookupFile s.tree p = some c := by
  constructor
  · intro h p c hpc
    have hmem : p ∈ s.head.map Prod.fst := lookupFile_mem_of_some s.head p c hpc
    simp only [diffEmpty, List.isEmpty_iff, dirtyFiles,
      List.filter_eq_nil_iff] at h
    have heq : lookupFile s.tree p = lookupFile s.head p := by
      have h2 := h p hmem
      simpa using h2
    rw [heq, hpc]
  · intro h
    simp only [diffEmpty, List.isEmpty_iff, dirtyFiles, List.filter_eq_nil_iff]
    intro p hmem
    obtain ⟨c, hc⟩ := lookupFile_some_of_mem s.head p hmem
    have := h p c hc
    simp [this, hc]

theorem lookupFile_setFile :
    ∀ (tree : List (List Char × List Char)) (p c q : List Char),
    lookupFile (setFile tree p c) q = if p == q then some c else lookupFile tree q := by
  intro tree p c q
  induction tree with
  | nil =>
    by_cases hpq : p = q <;> simp [setFile, lookupFile, hpq]
  | cons e rest ih =>
    obtain ⟨r, d⟩ := e
    by_cases hrp : r = p
    · subst hrp
      by_cases hrq : r = q <;> simp [setFile, lookupFile, hrq]
    · have hrp' : (r == p) = false := by simpa [beq_eq_false_iff_ne] using hrp
      by_cases hrq : r = q
      · subst hrq
        have hpr : (p == r) = false := by
          simp [beq_eq_false_iff_ne]
          exact fun h => hrp h.symm
        simp [setFile, lookupFile, hrp', hpr]
      · have hrq' : (r == q) = false := by simpa [beq_eq_false_iff_ne] using hrq
        simp [setFile, lookupFile, hrp', hrq', ih]

/-! ## Helper lemmas -/

theorem occursIn_nil_pat : ∀ s : List Char, occursIn [] s = true
  | [] => rfl
  | _ :: _ => by simp [occursIn, startsWith]

theorem startsWith_self : ∀ s : List Char, startsWith s s = true := by
  intro s
  exact (startsWith_iff s s).2 ⟨[], by simp⟩

theorem occursIn_self (s : List Char) : occursIn s s = true := by
  cases s with
  | nil => rfl
  | cons c cs => simp [occursIn, startsWith_self]

/-- `edit` with `old_string` equal to the whole content always succeeds and
replaces everything. -/
theorem editContent_self (s new : List Char) :
    editContent s s new = some new := by
  unfold editContent
  rw [if_pos (occursIn_self s)]
  cases s with
  | nil => simp [replaceFirst, startsWith]
  | cons c cs =>
    simp only [replaceFirst, if_pos (startsWith_self (c :: cs))]
    simp

/-- Position of the first occurrence of `pat` in `s`
(Python `s.find(pat)`, with `none` for `-1`). -/
def firstOccAt (pat : List Char) : List Char → Option Nat
  | [] => if startsWith pat [] then some 0 else none
  | c :: cs =>
    if startsWith pat (c :: cs) then some 0
    else (firstOccAt pat cs).map (· + 1)

theorem firstOccAt_le : ∀ (s pat : List Char) (n : Nat),
    firstOccAt pat s = some n →
    ∀ pre' post', s = pre' ++ pat ++ post' → n ≤ pre'.length := by
  intro s
  induction s with
  | nil =>
    intro pat n h pre' post' _
    simp only [firstOccAt] at h
    by_cases hsw : startsWith pat [] = true
    · rw [if_pos hsw] at h
      cases h
      exact Nat.zero_le _
    · rw [if_neg hsw] at h
      cases h
  | cons c cs ih =>
    intro pat n h pre' post' hsplit
    by_cases hsw : startsWith pat (c :: cs) = true
    · simp only [firstOccAt, if_pos hsw] at h
      cases h
      exact Nat.zero_le _
    · simp only [firstOccAt, if_neg hsw, Option.map_eq_some'] at h
      obtain ⟨m, hm, rfl⟩ := h
      cases pre' with
      | nil =>
        exfalso
        exact hsw ((startsWith_iff pat (c :: cs)).2 ⟨post', by simpa using hsplit⟩)
      | cons a l =>
        simp only [List.cons_append, List.cons.injEq] at hsplit
        have := ih pat m hm l post' hsplit.2
        simpa using Nat.succ_le_succ this

/-- If the first occurrence of `pat` in `pre ++ pat ++ post` is at
position `pre.length`, that split is minimal. -/
theorem minimal_of_firstOccAt (pre pat post : List Char)
    (h : firstOccAt pat (pre ++ pat ++ post) = some pre.length) :
    ∀ pre' post', pre ++ pat ++ post = pre' ++ pat ++ post' →
      pre.length ≤ pre'.length :=
  firstOccAt_le (pre ++ pat ++ post) pat pre.length h

/-! ## Claim C2 — the edit engine replaces exactly the first occurrence -/

/-- C2: for every content in which `old_string` occurs at least once,
`edit_file` succeeds and replaces exactly the first (leftmost) occurrence of
`old_string` by `new_string`, leaving every byte outside that occurrence
unchanged: the content splits as `pre ++ old ++ post` with `pre` of minimal
length among all such splits, and the written content is
`pre ++ new ++ post`. When the occurrence is unique this is the unique
occurrence replaced. -/
theorem C2_theorem (content old new : List Char)
    (h : occursIn old content = true) :
    ∃ pre post,
      content = pre ++ old ++ post ∧
      (∀ pre' post', content = pre' ++ old ++ post' → pre.length ≤ pre'.length) ∧
      editContent content old new = some (pre ++ new ++ post) := by
  obtain ⟨pre, post, hsplit, hrep, hmin⟩ := replaceFirst_spec content old new h
  refine ⟨pre, post, hsplit, hmin, ?_⟩
  unfold editContent
  rw [if_pos h, hrep]

/-- Witness for C2 at a concrete input: in `"xay"` the pattern `"a"` occurs,
and the edit replaces it by `"b"`. -/
theorem C2_witness :
    occursIn (strL "a") (strL "xay") = true ∧
    ∃ pre post,
      strL "xay" = pre ++ strL "a" ++ post ∧
      (∀ pre' post', strL "xay" = pre' ++ strL "a" ++ post' →
        pre.length ≤ pre'.length) ∧
      editContent (strL "xay") (strL "a") (strL "b") = some (pre ++ strL "b" ++ post) :=
  ⟨by decide, C2_theorem (strL "xay") (strL "a") (strL "b") (by decide)⟩

/-! ## Claim C3 — empty `old_string`

The spec says an empty `old_text` is treated as an append-at-end. The code
has no such case: `"" in content` is `True` in Python, and
`content.replace("", new, 1)` inserts `new` at position 0, so an empty
`old_string` prepends `new_string` at the *beginning* of the file. -/

/-- C3 counterexample: editing `"abc"` with empty `old_string` and
`new_string = "X"` yields `"Xabc"`, not the append-at-end result
`"abcX"`. -/
theorem C3_counterexample :
    editContent (strL "abc") [] (strL "X") = some (strL "Xabc") ∧
    strL "Xabc" ≠ strL "abc" ++ strL "X" := by
  constructor
  · decide
  · decide

/-- C3 amended: invoking the edit operation with an empty `old_string`
inserts `new_string` at the beginning of the file content (prepend), for
every existing file content and every `new_string`. -/
theorem C3_amended_theorem (content new : List Char) :
    editContent content [] new = some (new ++ content) := by
  unfold editContent
  rw [if_pos (occursIn_nil_pat content)]
  cases content with
  | nil => simp [replaceFirst, startsWith]
  | cons c cs => simp [replaceFirst, startsWith]

/-! ## Claim C4 — the large-deletion guard is documented but absent

`prompts.py` (the system prompt shipped with the agent) states: "The system
checks for 'File Demolition' (mass deletions) and will reject your edit if
you delete >100 lines without replacing them." Neither `edit_file.py` nor
any of its callers computes a diff or counts removed lines: the edit is
applied unconditionally once `old_string` is found. -/

/-- A 101-line file (each line `x` followed by a newline). -/
def demolitionContent : List Char :=
  (List.replicate 101 (strL "x\n")).flatten

theorem demolitionContent_lines :
    demolitionContent.count '\n' = 101 := by
  have h : ∀ n : Nat, ((List.replicate n (strL "x\n")).flatten).count '\n' = n := by
    intro n
    induction n with
    | zero => rfl
    | succ m ih =>
      rw [List.replicate_succ, List.flatten_cons, List.count_append, ih]
      have h1 : List.count '\n' (strL "x\n") = 1 := rfl
      omega
  exact h 101

/-- C4: the code at the failing input. Editing the 101-line file with
`old_string` equal to its entire content and `new_string = ""` removes 101
lines (> 100) while adding 0 (< 10), yet `edit_file` applies the change and
reports success instead of rejecting it — contradicting the repository's own
system-prompt documentation of a "File Demolition" guard. -/
theorem C4_theorem :
    demolitionContent.count '\n' = 101 ∧
    editContent demolitionContent demolitionContent [] = some [] ∧
    (List.count '\n' ([] : List Char) = 0) :=
  ⟨demolitionContent_lines, editContent_self demolitionContent [], rfl⟩

/-! ## Claim C9 — re-running the edit with swapped arguments

The spec claims that when `old` occurs exactly once, `edit(content, old,
new)` followed by `edit(·, new, old)` restores the original content. This
fails when `new` already occurs in the content before the edited position:
the swapped edit then rewrites that earlier occurrence instead. -/

/-- C9 counterexample: in `"ba"` the pattern `"a"` occurs exactly once;
editing it to `"b"` gives `"bb"`, and the swapped edit replaces the *first*
`"b"`, yielding `"ab" ≠ "ba"`. -/
theorem C9_counterexample :
    occCount (strL "a") (strL "ba") = 1 ∧
    editContent (strL "ba") (strL "a") (strL "b") = some (strL "bb") ∧
    editContent (strL "bb") (strL "b") (strL "a") = some (strL "ab") ∧
    strL "ab" ≠ strL "ba" := by
  refine ⟨by decide, by decide, by decide, by decide⟩

/-- C9 amended: write the content as `pre ++ old ++ post` where the first
occurrence of `old` is at position `pre.length`. If, in the edited content
`pre ++ new ++ post`, the first occurrence of `new` is also at position
`pre.length` (i.e. the inserted `new_string` is the leftmost occurrence of
`new_string` in the result), then the edit produces `pre ++ new ++ post`
and re-running the edit with swapped arguments restores the original
content. -/
theorem C9_amended_theorem (pre old post new : List Char)
    (hOld : firstOccAt old (pre ++ old ++ post) = some pre.length)
    (hNew : firstOccAt new (pre ++ new ++ post) = some pre.length) :
    editContent (pre ++ old ++ post) old new = some (pre ++ new ++ post) ∧
    editContent (pre ++ new ++ post) new old = some (pre ++ old ++ post) := by
  have hOldOcc : occursIn old (pre ++ old ++ post) = true :=
    (occursIn_iff old _).2 ⟨pre, post, rfl⟩
  have hNewOcc : occursIn new (pre ++ new ++ post) = true :=
    (occursIn_iff new _).2 ⟨pre, post, rfl⟩
  constructor
  · unfold editContent
    rw [if_pos hOldOcc,
      replaceFirst_of_minimal_split pre old post new
        (minimal_of_firstOccAt pre old post hOld)]
  · unfold editContent
    rw [if_pos hNewOcc,
      replaceFirst_of_minimal_split pre new post old
        (minimal_of_firstOccAt pre new post hNew)]

/-- Witness for the amended C9 at a concrete input: `"xa"`, editing `"a"` to
`"b"` and back. -/
theorem C9_amended_witness :
    firstOccAt (strL "a") (strL "x" ++ strL "a" ++ []) = some (strL "x").length ∧
    firstOccAt (strL "b") (strL "x" ++ strL "b" ++ []) = some (strL "x").length ∧
    editContent (strL "x" ++ strL "a" ++ []) (strL "a") (strL "b")
      = some (strL "x" ++ strL "b" ++ []) ∧
    editContent (strL "x" ++ strL "b" ++ []) (strL "b") (strL "a")
      = some (strL "x" ++ strL "a" ++ []) := by
  refine ⟨by decide, by decide, ?_⟩
  have h := C9_amended_theorem (strL "x") (strL "a") [] (strL "b")
    (by decide) (by decide)
  exact ⟨h.1, h.2⟩

/-! ## Claim C5 — the deny-list guard blocks dev-server commands -/

/-- C5: any command whose lowercased, stripped form contains a deny-listed
launcher substring is blocked by `run_terminal_cmd` before any subprocess is
spawned — the guard runs unconditionally at the top of the tool, so no
confirmation flag can bypass it — and the tool returns the
`COMMAND BLOCKED` message, whatever the subprocess would have done. -/
theorem C5_theorem (command p : List Char)
    (hp : p ∈ forbiddenPatterns)
    (hocc : occursIn p (commandLower command) = true) :
    runTerminalGuard command = .blockForbidden ∧
    spawnsSubprocess (runTerminalGuard command) = false ∧
    ∀ outcome : ExecOutcome,
      runTerminalCmd command outcome = .blockedForbiddenMsg command := by
  have hany : forbiddenPatterns.any (fun q => occursIn q (commandLower command)) = true :=
    List.any_eq_true.2 ⟨p, hp, hocc⟩
  have hguard : runTerminalGuard command = .blockForbidden := by
    unfold runTerminalGuard
    rw [if_pos hany]
  refine ⟨hguard, by rw [hguard]; rfl, ?_⟩
  intro outcome
  unfold runTerminalCmd
  rw [hguard]

/-- Witness for C5 at the concrete command `npm run dev`. -/
theorem C5_witness :
    strL "npm run dev" ∈ forbiddenPatterns ∧
    occursIn (strL "npm run dev") (commandLower (strL "npm run dev")) = true ∧
    runTerminalGuard (strL "npm run dev") = .blockForbidden ∧
    spawnsSubprocess (runTerminalGuard (strL "npm run dev")) = false := by
  refine ⟨by decide, by decide, ?_⟩
  have h := C5_theorem (strL "npm run dev") (strL "npm run dev")
    (by decide) (by decide)
  exact ⟨h.1, h.2.1⟩

/-! ## Claim C6 — timeout handling -/

/-- C6: `subprocess.run` in `run_terminal_cmd` is called with the fixed
60-second timeout; when a command passes the guards (a subprocess is
spawned) and its execution exceeds that bound, Python raises
`subprocess.TimeoutExpired` (killing the child), the handler catches it and
the tool returns the timeout message to the caller instead of hanging. -/
theorem C6_theorem (command c : List Char)
    (h : runTerminalGuard command = .run c) :
    runTerminalCmd command .exceedsTimeout = .timedOutMsg ∧
    terminalTimeoutSeconds = 60 := by
  constructor
  · unfold runTerminalCmd
    rw [h]
  · rfl

/-- Witness for C6 at the concrete command `echo hi`. -/
theorem C6_witness :
    runTerminalGuard (strL "echo hi") = .run (strL "echo hi") ∧
    runTerminalCmd (strL "echo hi") .exceedsTimeout = .timedOutMsg :=
  ⟨by decide, (C6_theorem (strL "echo hi") (strL "echo hi") (by decide)).1⟩

/-! ## Claim C10 — the background-`&` check

The claim: every command containing `&` whose trimmed form does not end in
`&&` gets the BACKGROUND COMMAND BLOCKED message. Almost: the deny-list scan
runs first, so a command such as `vite &` is blocked with the deny-list
message instead. Both branches spawn no subprocess. -/

/-- C10 counterexample: `vite &` contains `&` and its stripped form does not
end in `&&`, yet `run_terminal_cmd` returns the deny-list
`COMMAND BLOCKED` message, not the background-command message. -/
theorem C10_counterexample :
    occursIn [ '&' ] (strL "vite &") = true ∧
    endsWith (strL "&&") (pyStrip (strL "vite &")) = false ∧
    runTerminalGuard (strL "vite &") = .blockForbidden ∧
    runTerminalGuard (strL "vite &") ≠ .blockBackground := by
  refine ⟨by decide, by decide, by decide, by decide⟩

/-- C10 amended: for every command containing `&` whose stripped form does
not end in `&&` *and which contains no deny-listed launcher substring*,
`run_terminal_cmd` returns the background-command blocked message and
spawns no subprocess (ordinary foreground chains such as
`npm install && npm test` are still blocked); when a deny-listed substring
is present the command is blocked too, but with the deny-list message. -/
theorem C10_amended_theorem (command : List Char)
    (hno : forbiddenPatterns.all
      (fun p => !occursIn p (commandLower command)) = true)
    (hamp : occursIn [ '&' ] command = true)
    (hend : endsWith (strL "&&") (pyStrip command) = false) :
    runTerminalGuard command = .blockBackground ∧
    spawnsSubprocess (runTerminalGuard command) = false ∧
    ∀ outcome : ExecOutcome,
      runTerminalCmd command outcome = .blockedBackgroundMsg command := by
  have hany : forbiddenPatterns.any
      (fun q => occursIn q (commandLower command)) = false := by
    rw [List.all_eq_true] at hno
    rw [List.any_eq_false]
    intro q hq
    have := hno q hq
    simpa using this
  have hguard : runTerminalGuard command = .blockBackground := by
    unfold runTerminalGuard
    rw [if_neg (by simp [hany]), if_pos (by simp [hamp, hend])]
  refine ⟨hguard, by rw [hguard]; rfl, ?_⟩
  intro outcome
  unfold runTerminalCmd
  rw [hguard]

/-- Witness for the amended C10 at the concrete foreground chain
`npm install && npm test`. -/
theorem C10_amended_witness :
    occursIn [ '&' ] (strL "npm install && npm test") = true ∧
    endsWith (strL "&&") (pyStrip (strL "npm install && npm test")) = false ∧
    runTerminalGuard (strL "npm install && npm test") = .blockBackground ∧
    spawnsSubprocess (runTerminalGuard (strL "npm install && npm test")) = false := by
  refine ⟨by decide, by decide, ?_⟩
  have h := C10_amended_theorem (strL "npm install && npm test")
    (by decide) (by decide) (by decide)
  exact ⟨h.1, h.2.1⟩

/-! ## Claim C7 — search caps and the `truncated` flag -/

/-- The `file_search` scan collects the first (up to) `10 - acc.length`
matching paths after the accumulator. -/
theorem fileSearchLoop_eq (q : List Char) :
    ∀ (files acc : List (List Char)), acc.length < 10 →
    fileSearchLoop q acc files
      = acc ++ (files.filter
          (fun f => occursIn q (f.map toLowerChar))).take (10 - acc.length) := by
  intro files
  induction files with
  | nil =>
    intro acc _
    simp [fileSearchLoop]
  | cons f fs ih =>
    intro acc hacc
    by_cases hf : occursIn q (f.map toLowerChar) = true
    · have hfil : List.filter (fun g => occursIn q (g.map toLowerChar)) (f :: fs)
          = f :: List.filter (fun g => occursIn q (g.map toLowerChar)) fs := by
        simp [List.filter_cons, hf]
      simp only [fileSearchLoop, if_pos hf, hfil]
      by_cases hfull : 10 ≤ (acc ++ [f]).length
      · rw [if_pos hfull]
        have hlen : acc.length = 9 := by
          simp only [List.length_append, List.length_singleton] at hfull
          omega
        have h1 : 10 - acc.length = 1 := by omega
        rw [h1, List.take_succ_cons, List.take_zero]
      · rw [if_neg hfull]
        have hlt : (acc ++ [f]).length < 10 := by omega
        rw [ih (acc ++ [f]) hlt]
        have hk : ∃ k, 10 - acc.length = k + 1 := ⟨10 - acc.length - 1, by omega⟩
        obtain ⟨k, hk⟩ := hk
        have hk' : 10 - (acc ++ [f]).length = k := by
          simp only [List.length_append, List.length_singleton]
          omega
        rw [hk, hk', List.take_succ_cons]
        simp
    · have hf' : occursIn q (f.map toLowerChar) = false := by
        simpa using hf
      have hfil : List.filter (fun g => occursIn q (g.map toLowerChar)) (f :: fs)
          = List.filter (fun g => occursIn q (g.map toLowerChar)) fs := by
        simp [List.filter_cons, hf']
      simp only [fileSearchLoop, hf', Bool.false_eq_true, if_false, hfil]
      exact ih acc hacc

/-- The inner grep line loop never grows the result list past 50 when
entered below the cap. -/
theorem grepFileLoop_le (pred : List Char → Bool) (f : List Char) :
    ∀ (ls : List (List Char)) (n : Nat) (acc : List GrepMatch),
    acc.length < 50 → (grepFileLoop pred f n acc ls).length ≤ 50 := by
  intro ls
  induction ls with
  | nil =>
    intro n acc hacc
    simp only [grepFileLoop]
    omega
  | cons l ls ih =>
    intro n acc hacc
    by_cases hl : pred l = true
    · simp only [grepFileLoop, if_pos hl]
      by_cases hfull : 50 ≤ (acc ++ [(⟨f, n, pyRstrip l⟩ : GrepMatch)]).length
      · rw [if_pos hfull]
        simp only [List.length_append, List.length_singleton]
        omega
      · rw [if_neg hfull]
        exact ih (n + 1) _ (by omega)
    · have hl' : pred l = false := by simpa using hl
      simp only [grepFileLoop, hl', Bool.false_eq_true, if_false]
      exact ih (n + 1) acc hacc

/-- The outer grep file loop never returns more than 50 matches when
entered below the cap. -/
theorem grepLoop_le (pred : List Char → Bool) :
    ∀ (files : List (List Char × List (List Char))) (acc : List GrepMatch),
    acc.length < 50 → (grepLoop pred acc files).length ≤ 50 := by
  intro files
  induction files with
  | nil =>
    intro acc hacc
    simp only [grepLoop]
    omega
  | cons e rest ih =>
    intro acc hacc
    obtain ⟨f, ls⟩ := e
    simp only [grepLoop]
    by_cases hfull : 50 ≤ (grepFileLoop pred f 1 acc ls).length
    · rw [if_pos hfull]
      exact grepFileLoop_le pred f ls 1 acc hacc
    · rw [if_neg hfull]
      exact ih _ (by omega)

theorem insertByKeyDesc_length (key : List Char → Nat) (x : List Char) :
    ∀ l : List (List Char), (insertByKeyDesc key x l).length = l.length + 1 := by
  intro l
  induction l with
  | nil => rfl
  | cons y ys ih =>
    by_cases h : key y < key x
    · simp [insertByKeyDesc, if_pos h]
    · simp [insertByKeyDesc, if_neg h, ih]

theorem sortByKeyDesc_length (key : List Char → Nat) :
    ∀ l : List (List Char), (sortByKeyDesc key l).length = l.length := by
  intro l
  induction l with
  | nil => rfl
  | cons x xs ih =>
    simp [sortByKeyDesc, insertByKeyDesc_length, ih]

/-- Ten file paths that all contain the query `a`. -/
def tenMatchingFiles : List (List Char) :=
  [strL "a0", strL "a1", strL "a2", strL "a3", strL "a4",
   strL "a5", strL "a6", strL "a7", strL "a8", strL "a9"]

/-- C7 counterexample: with exactly 10 matching files, `file_search` returns
every match — nothing is omitted by the cap — and yet sets
`truncated = true`, because the source computes `truncated` as
`len(matches) >= 10`, not as "matches were omitted". (The glob tool,
moreover, has no cap and no `truncated` field at all; see
`C7_amended_theorem`.) -/
theorem C7_counterexample :
    (fileSearch tenMatchingFiles (strL "a")).matchList = tenMatchingFiles ∧
    tenMatchingFiles.all
      (fun f => occursIn (strL "a") (f.map toLowerChar)) = true ∧
    (fileSearch tenMatchingFiles (strL "a")).truncated = true := by
  refine ⟨by decide, by decide, by decide⟩

/-- C7 amended: `file_search` returns the first at-most-10 matches in scan
order with `truncated` set exactly when at least 10 files match (so the
flag over-reports truncation when the total equals the cap); `grep_search`
returns at most 50 matches with `truncated = (count ≥ 50)`; `glob_search`
returns *all* matches — it has no cap (and its result carries no
`truncated` field). -/
theorem C7_amended_theorem :
    (∀ (files : List (List Char)) (query : List Char),
      (fileSearch files query).matchList
        = (files.filter (fun f =>
            occursIn (query.map toLowerChar) (f.map toLowerChar))).take 10 ∧
      ((fileSearch files query).truncated = true ↔
        10 ≤ (files.filter (fun f =>
          occursIn (query.map toLowerChar) (f.map toLowerChar))).length)) ∧
    (∀ (pred : List Char → Bool) (files : List (List Char × List (List Char))),
      (grepSearch pred files).results.length ≤ 50 ∧
      ((grepSearch pred files).truncated = true ↔
        50 ≤ (grepSearch pred files).results.length)) ∧
    (∀ (mtime : List Char → Nat) (globMatches : List (List Char)),
      (globSearch mtime globMatches).matchList.length = globMatches.length) := by
  refine ⟨?_, ?_, ?_⟩
  · intro files query
    have h := fileSearchLoop_eq (query.map toLowerChar) files [] (by simp)
    simp only [List.nil_append, List.length_nil, Nat.sub_zero] at h
    constructor
    · show fileSearchLoop (query.map toLowerChar) [] files = _
      exact h
    · show decide (10 ≤ (fileSearchLoop (query.map toLowerChar) [] files).length)
        = true ↔ _
      rw [h, decide_eq_true_eq, List.length_take]
      omega
  · intro pred files
    constructor
    · exact grepLoop_le pred files [] (by simp)
    · show decide (50 ≤ (grepLoop pred [] files).length) = true ↔ _
      rw [decide_eq_true_eq]
      exact Iff.rfl
  · intro mtime globMatches
    exact sortByKeyDesc_length mtime globMatches

/-! ## Claim C8 — the SSE heartbeat

The claim: whenever the gap since the last emitted event exceeds 15 seconds
a heartbeat is injected, so the connection never idles longer than 15s. The
generator, however, only *checks* the clock when the next inner event
arrives: during an event-free model call nothing is yielded at all, and the
keep-alive comment is emitted (uselessly late) immediately before the next
event. -/

/-- C8 counterexample: with inner events at t = 0 and t = 100, the emitted
chunks are at times 0, 100, 100 — the connection idles for 100 seconds
(> 15) with no heartbeat inside the gap, even though the code does prepend
a keep-alive to the second event. -/
theorem C8_counterexample :
    (eventGen 0 [⟨0, strL "a"⟩, ⟨100, strL "b"⟩]).map chunkTime = [0, 100, 100] ∧
    gapsWithin 15 ((eventGen 0 [⟨0, strL "a"⟩, ⟨100, strL "b"⟩]).map chunkTime)
      = false := by
  refine ⟨by decide, by decide⟩

/-- C8 amended: a keep-alive chunk is emitted *immediately before the next
inner event* whenever that event arrives more than 15 seconds after the last
emitted chunk; between inner events nothing is emitted, so idle gaps are
bounded only by the inner event gaps, not by 15 seconds. -/
theorem C8_amended_theorem (lastHb t : Nat) (d : List Char)
    (rest : List TimedEvent) (h : 15 < t - lastHb) :
    eventGen lastHb (⟨t, d⟩ :: rest)
      = .keepAlive t :: .dataChunk t d :: eventGen t rest := by
  simp only [eventGen, if_pos h]

/-- Witness for the amended C8: an event arriving 100 seconds after the
stream start gets a keep-alive prepended. -/
theorem C8_amended_witness :
    15 < 100 - 0 ∧
    eventGen 0 [⟨100, strL "b"⟩]
      = [.keepAlive 100, .dataChunk 100 (strL "b")] := by
  refine ⟨by decide, ?_⟩
  rw [C8_amended_theorem 0 100 (strL "b") [] (by decide)]
  rfl

/-! ## Claim C1 — the commit-after-mutation invariant

The claim: every successful mutating tool call is followed by a commit, so
the diff against the last commit is empty right after the call. The agent
tools (`agents/tools/write_file.py` etc.) write to the filesystem and
return; no `GitService` call follows them anywhere in `orchestrator.py` or
`chat_service.py`. Only the project-file HTTP API
(`ProjectService.add_file_to_project` / `update_file` / `delete_file`)
commits after each mutation. -/

/-- C1 counterexample: a clean workspace with one committed (tracked) file
`a.txt` containing `x`; one successful agent `write_file` tool call
overwrites it with `y`. The tracked file now differs from the last commit,
so `git diff` output is non-empty immediately after the call — refuting
the claimed invariant. -/
theorem C1_counterexample :
    diffEmpty ⟨[(strL "a.txt", strL "x")], [(strL "a.txt", strL "x")]⟩ = true ∧
    diffEmpty (toolWriteFile ⟨[(strL "a.txt", strL "x")], [(strL "a.txt", strL "x")]⟩
      (strL "a.txt") (strL "y")) = false := by
  refine ⟨by decide, by decide⟩

/-- C1 amended: the mutate-then-commit discipline holds on the project-file
API but not on the agent tools: starting from a clean workspace,
`ProjectService.update_file` (write + `commit_changes` of that file) and
`ProjectService.delete_file` (delete + `commit_changes` of everything)
leave an empty diff, while the agent `write_file` tool performs no commit
at all (the last-commit tree is untouched, so its mutation stays
uncommitted until some later API commit). -/
theorem C1_amended_theorem (s : WsState) (p c : List Char)
    (h : diffEmpty s = true) :
    diffEmpty (updateFileApi s p c) = true ∧
    diffEmpty (deleteFileApi s p) = true ∧
    (toolWriteFile s p c).head = s.head := by
  refine ⟨?_, ?_, rfl⟩
  · have hpoint := (diffEmpty_iff s).1 h
    have hlook : lookupFile (setFile s.tree p c) p = some c := by
      rw [lookupFile_setFile]
      simp
    have hhead : stagePath (setFile s.tree p c) s.head p = setFile s.head p c := by
      unfold stagePath
      rw [hlook]
    apply (diffEmpty_iff _).2
    intro q d hq
    have hq' : lookupFile (stagePath (setFile s.tree p c) s.head p) q = some d := hq
    rw [hhead, lookupFile_setFile] at hq'
    show lookupFile (setFile s.tree p c) q = some d
    rw [lookupFile_setFile]
    by_cases hpq : (p == q) = true
    · rw [if_pos hpq] at hq' ⊢
      exact hq'
    · rw [if_neg (by simp_all)] at hq'
      rw [if_neg (by simp_all)]
      exact hpoint q d hq'
  · apply (diffEmpty_iff _).2
    intro q d hq
    exact hq

/-- Witness for the amended C1: a clean one-file workspace stays clean after
`update_file`. -/
theorem C1_amended_witness :
    diffEmpty ⟨[(strL "a", strL "x")], [(strL "a", strL "x")]⟩ = true ∧
    diffEmpty (updateFileApi ⟨[(strL "a", strL "x")], [(strL "a", strL "x")]⟩
      (strL "a") (strL "y")) = true := by
  refine ⟨by decide, ?_⟩
  exact (C1_amended_theorem ⟨[(strL "a", strL "x")], [(strL "a", strL "x")]⟩
    (strL "a") (strL "y") (by decide)).1

end DaveLovable
